import Mathlib

/-!
# Verification of the file-fling-zip staging and archive builder

A shallow embedding of `src/src/components/FileUpload.tsx`.  The component
keeps an in-memory staging list of files (`addFiles`, `removeFile`,
`clearAllFiles`) and builds a zip archive from it (`createZip`), reporting
progress checkpoints and triggering a download.  Browser primitives are
modelled explicitly:

* `Math.random()`-generated ids and `URL.createObjectURL` handles are drawn
  from an environment `Env` of supply functions, consumed at counters kept in
  the machine state;
* all observable side effects (toasts, `console.error`, progress updates,
  object-URL creation/revocation, the download) are recorded as an `Event`
  trace;
* the JSZip archive is a list of named byte payloads, `zip.file` having
  add-or-overwrite semantics;
* `new Date().toISOString().slice(0, 19).replace(/:/g, '-')` is modelled on a
  broken-down `DateTime`;
* the single `try/catch` is modelled by a `BuildOutcome` parameter saying
  where (if anywhere) the third-party zip library throws.
-/

/-- A raw browser `File`: name, MIME type and byte content.  Its `size` is the
length of the content. -/
structure RawFile where
  name : String
  mimeType : String
  content : List Nat
deriving DecidableEq

/-- `FileItem` from the source: a staged entry holding a random id, the raw
file, and an optional preview object-URL handle (allocated for images). -/
structure FileItem where
  id : String
  file : RawFile
  preview : Option String
deriving DecidableEq

/-- The in-memory zip archive: an insertion-ordered list of named byte
payloads, mirroring the JSZip object keyed by entry name. -/
abbrev Archive := List (String × List Nat)

/-- A broken-down clock reading, as used by `new Date().toISOString()`. -/
structure DateTime where
  year : Nat
  month : Nat
  day : Nat
  hour : Nat
  minute : Nat
  second : Nat
deriving DecidableEq

/-- Component-relevant validity of a clock reading: every field fits the
number of digits `toISOString` prints for it. -/
def DateTime.Valid (t : DateTime) : Prop :=
  t.year ≤ 9999 ∧ t.month ≤ 12 ∧ t.day ≤ 31 ∧ t.hour ≤ 23 ∧
    t.minute ≤ 59 ∧ t.second ≤ 59

instance : DecidablePred DateTime.Valid := fun t =>
  inferInstanceAs (Decidable (t.year ≤ 9999 ∧ t.month ≤ 12 ∧ t.day ≤ 31 ∧
    t.hour ≤ 23 ∧ t.minute ≤ 59 ∧ t.second ≤ 59))

/-- Observable side effects of the component, in the order they happen. -/
inductive Event where
  | toastSuccess (msg : String)
  | toastError (msg : String)
  | consoleError
  | createURL (u : String)
  | revokeURL (u : String)
  | setProgress (p : ℚ)
  | setCreating (b : Bool)
  | download (filename : String) (blob : Archive)
deriving DecidableEq

/-- Environment of browser-supplied values: the `k`-th random id produced by
`Math.random().toString(36).substring(7)` and the `k`-th object URL produced
by `URL.createObjectURL`. -/
structure Env where
  idAt : Nat → String
  urlAt : Nat → String

/-- Component state: the staging list and the two `useState` flags, plus the
counters into the id/url supplies. -/
structure MState where
  files : List FileItem
  isCreatingZip : Bool
  zipProgress : ℚ
  idCtr : Nat
  urlCtr : Nat
deriving DecidableEq

/-- The state at mount: empty staging list, not building, progress 0. -/
def initState : MState := ⟨[], false, 0, 0, 0⟩

/-- `file.type.startsWith('image/')`: the MIME type has `image/` as a
prefix. -/
def isImage (f : RawFile) : Bool := "image/".data.isPrefixOf f.mimeType.data

/-- Result of staging a batch of raw files: the new `FileItem`s, the advanced
supply counters, and the `URL.createObjectURL` events emitted. -/
structure StageRes where
  items : List FileItem
  idCtr : Nat
  urlCtr : Nat
  events : List Event

/-- The `newFiles.map(...)` body of `addFiles`: each raw file becomes a
`FileItem` with the next random id and, for image MIME types, the next
object URL as preview. -/
def stageList (env : Env) : Nat → Nat → List RawFile → StageRes
  | i, u, [] => ⟨[], i, u, []⟩
  | i, u, f :: fs =>
    if isImage f then
      let r := stageList env (i + 1) (u + 1) fs
      ⟨⟨env.idAt i, f, some (env.urlAt u)⟩ :: r.items, r.idCtr, r.urlCtr,
        Event.createURL (env.urlAt u) :: r.events⟩
    else
      let r := stageList env (i + 1) u fs
      ⟨⟨env.idAt i, f, none⟩ :: r.items, r.idCtr, r.urlCtr, r.events⟩

/-- `addFiles` from the source: append one `FileItem` per input file to the
staging list and toast the count added. -/
def addFiles (env : Env) (newFiles : List RawFile) (s : MState) :
    MState × List Event :=
  let r := stageList env s.idCtr s.urlCtr newFiles
  ({ s with files := s.files ++ r.items, idCtr := r.idCtr, urlCtr := r.urlCtr },
    r.events ++
      [Event.toastSuccess ("Added " ++ toString newFiles.length ++ " file(s)")])

/-- `removeFile` from the source: revoke the preview of the first entry whose
id matches (if it has one), then filter out every entry with that id. -/
def removeFile (id : String) (s : MState) : MState × List Event :=
  let revokes : List Event :=
    match s.files.find? (fun f => f.id == id) with
    | some fi =>
      match fi.preview with
      | some u => [Event.revokeURL u]
      | none => []
    | none => []
  ({ s with files := s.files.filter (fun f => f.id != id) }, revokes)

/-- `clearAllFiles` from the source: revoke every preview, empty the list,
toast success. -/
def clearAllFiles (s : MState) : MState × List Event :=
  ({ s with files := [] },
    (s.files.filterMap (fun fi => fi.preview)).map Event.revokeURL ++
      [Event.toastSuccess "All files cleared"])

/-- JSZip `zip.file(name, data)`: if an entry with that name exists it is
overwritten in place, otherwise a new entry is appended. -/
def zipAdd (ar : Archive) (name : String) (bytes : List Nat) : Archive :=
  if ar.any (fun e => e.1 == name) then
    ar.map (fun e => if e.1 == name then (name, bytes) else e)
  else ar ++ [(name, bytes)]

/-- Adding a list of staged files to an archive in order. -/
def zipAddAll (ar : Archive) : List FileItem → Archive
  | [] => ar
  | fi :: fs => zipAddAll (zipAdd ar fi.file.name fi.file.content) fs

/-- Entry names of an archive, in order. -/
def entryNames (ar : Archive) : List String := ar.map (fun e => e.1)

/-- Reading the bytes stored under a name (extraction of one entry). -/
def lookupA (ar : Archive) (name : String) : Option (List Nat) :=
  (ar.find? (fun e => e.1 == name)).map (fun e => e.2)

/-- The character for the decimal digit `d % 10`, as printed by
`toISOString`. -/
def digitChar (d : Nat) : Char := Char.ofNat (48 + d % 10)

/-- A two-digit zero-padded field of `toISOString` (faithful for `n ≤ 99`). -/
def pad2 (n : Nat) : List Char := [digitChar (n / 10), digitChar n]

/-- The four-digit zero-padded year field of `toISOString` (faithful for
`n ≤ 9999`). -/
def pad4 (n : Nat) : List Char :=
  [digitChar (n / 1000), digitChar (n / 100), digitChar (n / 10), digitChar n]

/-- `new Date().toISOString().slice(0, 19).replace(/:/g, '-')` as a character
list: `YYYY-MM-DDTHH-MM-SS`. -/
def timestampChars (t : DateTime) : List Char :=
  pad4 t.year ++ '-' :: pad2 t.month ++ '-' :: pad2 t.day ++
    'T' :: pad2 t.hour ++ '-' :: pad2 t.minute ++ '-' :: pad2 t.second

/-- The timestamp string interpolated into the download filename. -/
def timestampStr (t : DateTime) : String := String.mk (timestampChars t)

/-- The download filename built at line 109 of the source. -/
def zipFileName (t : DateTime) : String :=
  "file-fling-" ++ timestampStr t ++ ".zip"

/-- One element of a filename pattern: a literal character or any decimal
digit. -/
inductive PatElem where
  | lit (c : Char)
  | digit
deriving DecidableEq

/-- Whether a character matches one pattern element. -/
def patElemOk : PatElem → Char → Bool
  | PatElem.lit c, c2 => c == c2
  | PatElem.digit, c2 => decide (48 ≤ c2.toNat) && decide (c2.toNat ≤ 57)

/-- Whole-string match of a character list against a pattern. -/
def patMatch : List PatElem → List Char → Bool
  | [], [] => true
  | p :: ps, c :: cs => patElemOk p c && patMatch ps cs
  | _, [] => false
  | [], _ => false

/-- Literal pattern elements for a string. -/
def litPat (s : String) : List PatElem := s.data.map PatElem.lit

/-- The spec's filename pattern
`file-fling-\d\d\d\d-\d\d-\d\dT\d\d-\d\d-\d\d\.zip`. -/
def fileFlingPat : List PatElem :=
  litPat "file-fling-" ++
    [PatElem.digit, PatElem.digit, PatElem.digit, PatElem.digit,
      PatElem.lit '-', PatElem.digit, PatElem.digit,
      PatElem.lit '-', PatElem.digit, PatElem.digit,
      PatElem.lit 'T', PatElem.digit, PatElem.digit,
      PatElem.lit '-', PatElem.digit, PatElem.digit,
      PatElem.lit '-', PatElem.digit, PatElem.digit] ++
    litPat ".zip"

/-- Where, if anywhere, the third-party zip library throws during a build:
nowhere, while adding the file at a given loop index, or while serializing. -/
inductive BuildOutcome where
  | ok
  | failAdd (k : Nat)
  | failGenerate
deriving DecidableEq

/-- Whether the outcome makes `zip.file` throw at loop index `i`. -/
def throwsAt (out : BuildOutcome) (i : Nat) : Bool :=
  match out with
  | BuildOutcome.failAdd k => k == i
  | _ => false

/-- Whether the outcome produces a failure at all during a build over `n`
staged files. -/
def failsFor (out : BuildOutcome) (n : Nat) : Bool :=
  match out with
  | BuildOutcome.ok => false
  | BuildOutcome.failAdd k => decide (k < n)
  | BuildOutcome.failGenerate => true

/-- The `for` loop of `createZip`: add each file to the archive and set
progress to `(i + 1) / n * 50`.  Returns the events emitted before any throw
and, when no throw happened, the accumulated archive. -/
def zipLoop (out : BuildOutcome) (n : Nat) :
    Nat → Archive → List FileItem → List Event × Option Archive
  | _, ar, [] => ([], some ar)
  | i, ar, fi :: fs =>
    if throwsAt out i then ([], none)
    else
      let r := zipLoop out n (i + 1) (zipAdd ar fi.file.name fi.file.content) fs
      (Event.setProgress (((i : ℚ) + 1) / (n : ℚ) * 50) :: r.1, r.2)

/-- The `try` block of `createZip`: the loop, the 75 checkpoint, serialization
(`generateAsync`, deflate level 6), the 100 checkpoint, the download and the
success toast.  Returns the events emitted and whether the block completed
without throwing. -/
def tryBody (now : DateTime) (out : BuildOutcome) (files : List FileItem) :
    List Event × Bool :=
  let r := zipLoop out files.length 0 [] files
  match r.2 with
  | none => (r.1, false)
  | some ar =>
    match out with
    | BuildOutcome.failGenerate => (r.1 ++ [Event.setProgress 75], false)
    | _ =>
      (r.1 ++
        [Event.setProgress 75, Event.setProgress 100,
          Event.download (zipFileName now) ar,
          Event.toastSuccess "ZIP file created and downloaded successfully!"],
        true)

/-- `createZip` from the source.  The guard toasts and aborts on an empty
list; otherwise the `try` block runs, a throw is caught (logged and toasted
generically, never re-thrown), and the `finally` clause resets
`isCreatingZip` and `zipProgress`. -/
def createZip (now : DateTime) (out : BuildOutcome) (s : MState) :
    MState × List Event :=
  if s.files.length = 0 then
    (s, [Event.toastError "Please add some files first"])
  else
    let body := tryBody now out s.files
    ({ s with isCreatingZip := false, zipProgress := 0 },
      Event.setCreating true :: Event.setProgress 0 ::
        (body.1 ++
          (if body.2 then []
            else [Event.consoleError,
              Event.toastError "Failed to create ZIP file"]) ++
          [Event.setCreating false, Event.setProgress 0]))

/-- The progress values set during a trace, in order. -/
def progressValues (evs : List Event) : List ℚ :=
  evs.filterMap (fun e =>
    match e with
    | Event.setProgress p => some p
    | _ => none)

/-- The downloads triggered during a trace. -/
def downloadEvents (evs : List Event) : List (String × Archive) :=
  evs.filterMap (fun e =>
    match e with
    | Event.download f b => some (f, b)
    | _ => none)

/-- The error-toast messages of a trace. -/
def errorToasts (evs : List Event) : List String :=
  evs.filterMap (fun e =>
    match e with
    | Event.toastError m => some m
    | _ => none)

/-- The success-toast messages of a trace. -/
def successToasts (evs : List Event) : List String :=
  evs.filterMap (fun e =>
    match e with
    | Event.toastSuccess m => some m
    | _ => none)

/-- The object URLs created during a trace, in order. -/
def createdHandles (evs : List Event) : List String :=
  evs.filterMap (fun e =>
    match e with
    | Event.createURL u => some u
    | _ => none)

/-- The object URLs revoked during a trace, in order. -/
def revokedHandles (evs : List Event) : List String :=
  evs.filterMap (fun e =>
    match e with
    | Event.revokeURL u => some u
    | _ => none)

/-- The preview handles of the currently staged entries. -/
def currentPreviews (s : MState) : List String :=
  s.files.filterMap (fun fi => fi.preview)

/-- The per-file progress checkpoints of a build over `n` files:
`(i + 1) / n * 50` for `i = 0 .. n - 1`. -/
def checkpoints (n : Nat) : List ℚ :=
  (List.range n).map (fun i => ((i + 1 : Nat) : ℚ) / (n : ℚ) * 50)

/-- A user/environment interaction with the component. -/
inductive UIAction where
  | addA (raws : List RawFile)
  | removeA (id : String)
  | clearA
  | buildA (now : DateTime) (out : BuildOutcome)

/-- One interaction step. -/
def step (env : Env) (s : MState) : UIAction → MState × List Event
  | UIAction.addA raws => addFiles env raws s
  | UIAction.removeA id => removeFile id s
  | UIAction.clearA => clearAllFiles s
  | UIAction.buildA now out => createZip now out s

/-- Running a sequence of interactions, accumulating the event trace. -/
def run (env : Env) : MState → List UIAction → MState × List Event
  | s, [] => (s, [])
  | s, a :: rest =>
    let r := step env s a
    let r2 := run env r.1 rest
    (r2.1, r.2 ++ r2.2)

/-- A session: a sequence of interactions from the mount state. -/
def runFromInit (env : Env) (acts : List UIAction) : MState × List Event :=
  run env initState acts

/-! Concrete inputs used by witnesses and counterexamples. -/

/-- A small text file. -/
def txtFile : RawFile := ⟨"a.txt", "text/plain", [1, 2, 3]⟩

/-- A small image file. -/
def pngFile : RawFile := ⟨"b.png", "image/png", [7, 8]⟩

/-- A sample clock reading. -/
def sampleDate : DateTime := ⟨2024, 5, 6, 7, 8, 9⟩

/-- A later sample clock reading (differs in the second). -/
def sampleDate2 : DateTime := ⟨2024, 5, 6, 7, 8, 10⟩

/-- A staged state holding a text file and an image file with a preview. -/
def twoFileState : MState :=
  ⟨[⟨"id1", txtFile, none⟩, ⟨"id2", pngFile, some "u0"⟩], false, 0, 2, 1⟩

/-- A staged state with two different files sharing the name `a.txt`. -/
def dupNameState : MState :=
  ⟨[⟨"id1", ⟨"a.txt", "text/plain", [1]⟩, none⟩,
    ⟨"id2", ⟨"a.txt", "text/plain", [2]⟩, none⟩], false, 0, 2, 0⟩

/-- A staged state in which the random id generator happened to produce the
same id twice. -/
def dupIdState : MState :=
  ⟨[⟨"dup", ⟨"f1", "text/plain", [1]⟩, none⟩,
    ⟨"dup", ⟨"f2", "text/plain", [2]⟩, none⟩], false, 0, 2, 0⟩

/-- An empty staging state with distinctive flag values. -/
def emptyState : MState := ⟨[], false, 0, 3, 1⟩

/-- An injective id/url supply. -/
def envW : Env :=
  ⟨fun k => String.mk (List.replicate (k + 1) 'i'),
    fun k => String.mk (List.replicate (k + 1) 'u')⟩

/-- A supply whose random id generator collides (always returns `dup`) while
object URLs stay distinct. -/
def envC : Env :=
  ⟨fun _ => "dup", fun k => String.mk (List.replicate (k + 1) 'u')⟩

/-- A first image file. -/
def imgA : RawFile := ⟨"p.png", "image/png", [0]⟩

/-- A second image file. -/
def imgB : RawFile := ⟨"q.png", "image/png", [1]⟩

/-- Add two images under colliding ids, then remove by that id. -/
def actsC : List UIAction := [UIAction.addA [imgA, imgB], UIAction.removeA "dup"]

/-- Resource-accounting invariant tying a reachable component state to its
event trace: staged ids are pairwise distinct and drawn from the consumed
prefix of the id supply; staged preview handles are drawn from the consumed
prefix of the URL supply; the created handles are exactly that prefix, in
order; every consumed handle is either still staged (with no revocation yet)
or has been revoked exactly once; and only consumed handles are ever
revoked. -/
def ResInv (env : Env) (s : MState) (tr : List Event) : Prop :=
  (s.files.map (fun fi => fi.id)).Nodup
  ∧ (∀ fi ∈ s.files, ∃ k, k < s.idCtr ∧ fi.id = env.idAt k)
  ∧ (∀ u ∈ currentPreviews s, ∃ k, k < s.urlCtr ∧ u = env.urlAt k)
  ∧ createdHandles tr = (List.range s.urlCtr).map env.urlAt
  ∧ (∀ k, k < s.urlCtr →
      (revokedHandles tr).count (env.urlAt k)
        + (currentPreviews s).count (env.urlAt k) = 1)
  ∧ (∀ u ∈ revokedHandles tr, ∃ k, k < s.urlCtr ∧ u = env.urlAt k)

/-! ## Helper lemmas: timestamp characters and the filename pattern -/

theorem digitChar_toNat (d : Nat) : (digitChar d).toNat = 48 + d % 10 := by
  have h : (48 + d % 10).isValidChar := Or.inl (by omega)
  simp [digitChar, Char.ofNat, h, Char.ofNatAux, Char.toNat, UInt32.toNat,
    BitVec.toNat_ofNatLt]

theorem digitChar_inj {a b : Nat} (h : digitChar a = digitChar b) :
    a % 10 = b % 10 := by
  have := congrArg Char.toNat h
  rw [digitChar_toNat, digitChar_toNat] at this
  omega

theorem patElemOk_digit (d : Nat) :
    patElemOk PatElem.digit (digitChar d) = true := by
  simp [patElemOk, digitChar_toNat]
  omega

theorem patMatch_lit_prefix (l : List Char) (ps : List PatElem) (cs : List Char) :
    patMatch (l.map PatElem.lit ++ ps) (l ++ cs) = patMatch ps cs := by
  induction l with
  | nil => rfl
  | cons c l ih => simp [patMatch, patElemOk, ih]

theorem zipFileName_data (t : DateTime) :
    (zipFileName t).data =
      "file-fling-".data ++ (timestampChars t ++ ".zip".data) := by
  simp [zipFileName, timestampStr, String.data_append, timestampStr]

theorem zipFileName_matchesPattern (t : DateTime) :
    patMatch fileFlingPat (zipFileName t).data = true := by
  rw [zipFileName_data]
  show patMatch (litPat "file-fling-" ++ _) _ = true
  rw [litPat, patMatch_lit_prefix]
  simp only [timestampChars, pad4, pad2, List.cons_append, List.nil_append,
    List.append_assoc]
  simp [patMatch, patElemOk, digitChar_toNat]
  omega

theorem timestampChars_inj {t1 t2 : DateTime} (h1 : t1.Valid) (h2 : t2.Valid)
    (h : timestampChars t1 = timestampChars t2) : t1 = t2 := by
  obtain ⟨hy1, hmo1, hd1, hh1, hmi1, hs1⟩ := h1
  obtain ⟨hy2, hmo2, hd2, hh2, hmi2, hs2⟩ := h2
  simp only [timestampChars, pad4, pad2, List.cons_append, List.nil_append,
    List.cons.injEq, List.append_assoc] at h
  obtain ⟨e1, e2, e3, e4, -, e5, e6, -, e7, e8, -, e9, e10, -, e11, e12, -,
    e13, e14, -⟩ := h
  have g1 := digitChar_inj e1
  have g2 := digitChar_inj e2
  have g3 := digitChar_inj e3
  have g4 := digitChar_inj e4
  have g5 := digitChar_inj e5
  have g6 := digitChar_inj e6
  have g7 := digitChar_inj e7
  have g8 := digitChar_inj e8
  have g9 := digitChar_inj e9
  have g10 := digitChar_inj e10
  have g11 := digitChar_inj e11
  have g12 := digitChar_inj e12
  have g13 := digitChar_inj e13
  have g14 := digitChar_inj e14
  obtain ⟨y1, mo1, d1, hh1v, mi1, s1⟩ := t1
  obtain ⟨y2, mo2, d2, hh2v, mi2, s2⟩ := t2
  simp_all only [DateTime.mk.injEq]
  omega

theorem zipFileName_inj_aux {t1 t2 : DateTime} (h1 : t1.Valid) (h2 : t2.Valid)
    (h : zipFileName t1 = zipFileName t2) : t1 = t2 := by
  have hd := congrArg String.data h
  rw [zipFileName_data, zipFileName_data] at hd
  have := List.append_cancel_left hd
  have := List.append_cancel_right this
  exact timestampChars_inj h1 h2 this

/-- Claim C2 (amended): the output filename embeds the current timestamp in
`YYYY-MM-DDTHH-MM-SS` format (colons replaced by hyphens), so two build runs
whose clock readings differ at second granularity produce different
filenames.  (As stated the claim fails: two runs within the same second
collide, see the counterexample.) -/
theorem zipFileName_distinct (t1 t2 : DateTime) (h1 : t1.Valid)
    (h2 : t2.Valid) (hne : t1 ≠ t2) : zipFileName t1 ≠ zipFileName t2 :=
  fun h => hne (zipFileName_inj_aux h1 h2 h)

/-- Witness for C2 (amended) at two concrete clock readings one second
apart. -/
theorem zipFileName_distinct_witness :
    zipFileName sampleDate ≠ zipFileName sampleDate2 :=
  zipFileName_distinct sampleDate sampleDate2 (by decide) (by decide)
    (by decide)

/-- Claim C2 counterexample: two distinct build runs (different staged
states) in the same clock second produce the same download filename, so
repeated runs can collide. -/
theorem zipFileName_collision :
    twoFileState ≠ dupNameState ∧
    (downloadEvents (createZip sampleDate BuildOutcome.ok twoFileState).2).map
        Prod.fst =
      (downloadEvents (createZip sampleDate BuildOutcome.ok dupNameState).2).map
        Prod.fst := by
  constructor
  · decide
  · decide

/-! ## The empty-input guard and the build frame condition -/

/-- Claim C4: invoking build with zero staged files reports a user-facing
error and aborts before any work: the result is exactly the unchanged state
plus the single error toast, so no archive is constructed, nothing is
downloaded, no progress value is set, and builder state and progress are
unchanged. -/
theorem createZip_empty (now : DateTime) (out : BuildOutcome) (s : MState)
    (h : s.files = []) :
    createZip now out s = (s, [Event.toastError "Please add some files first"])
    ∧ downloadEvents (createZip now out s).2 = []
    ∧ progressValues (createZip now out s).2 = []
    ∧ (createZip now out s).1 = s := by
  have hl : s.files.length = 0 := by simp [h]
  refine ⟨by simp [createZip, hl], ?_, ?_, by simp [createZip, hl]⟩
  · simp [createZip, hl, downloadEvents]
  · simp [createZip, hl, progressValues]

/-- Witness for C4 at a concrete empty staging state. -/
theorem createZip_empty_witness :
    createZip sampleDate BuildOutcome.ok emptyState =
      (emptyState, [Event.toastError "Please add some files first"]) :=
  (createZip_empty sampleDate BuildOutcome.ok emptyState (by decide)).1

/-- Claim C9: build never mutates the staging collection, whatever the
outcome: the staged entries (ids, files, previews) after `createZip` are the
ones from before. -/
theorem createZip_files_frame (now : DateTime) (out : BuildOutcome)
    (s : MState) : (createZip now out s).1.files = s.files := by
  by_cases hl : s.files.length = 0
  · simp [createZip, hl]
  · simp [createZip, hl]

/-! ## The build loop -/

theorem zipLoop_events_progress (out : BuildOutcome) (n : Nat) :
    ∀ (i : Nat) (ar : Archive) (fs : List FileItem) (e : Event),
      e ∈ (zipLoop out n i ar fs).1 → ∃ p, e = Event.setProgress p := by
  intro i ar fs
  induction fs generalizing i ar with
  | nil => intro e he; simp [zipLoop] at he
  | cons fi fs ih =>
    intro e he
    by_cases ht : throwsAt out i
    · simp [zipLoop, ht] at he
    · simp only [zipLoop, ht, Bool.false_eq_true, if_false, List.mem_cons] at he
      rcases he with rfl | he
      · exact ⟨_, rfl⟩
      · exact ih _ _ e he

theorem filterMapProj_nil {β : Type} (f : Event → Option β) (evs : List Event)
    (hf : ∀ p : ℚ, f (Event.setProgress p) = none)
    (h : ∀ e ∈ evs, ∃ p, e = Event.setProgress p) : evs.filterMap f = [] := by
  rw [List.filterMap_eq_nil_iff]
  intro a ha
  obtain ⟨p, rfl⟩ := h a ha
  exact hf p

theorem zipLoop_no_throw (out : BuildOutcome)
    (hout : ∀ i, throwsAt out i = false) (n : Nat) :
    ∀ (i : Nat) (ar : Archive) (fs : List FileItem),
      zipLoop out n i ar fs =
        ((List.range fs.length).map (fun j =>
            Event.setProgress ((((i + j : Nat) : ℚ) + 1) / (n : ℚ) * 50)),
          some (zipAddAll ar fs)) := by
  intro i ar fs
  induction fs generalizing i ar with
  | nil => simp [zipLoop, zipAddAll]
  | cons fi fs ih =>
    simp only [zipLoop, hout i, Bool.false_eq_true, if_false]
    rw [ih (i + 1) (zipAdd ar fi.file.name fi.file.content)]
    refine Prod.ext ?_ rfl
    dsimp only
    rw [List.length_cons, List.range_succ_eq_map, List.map_cons, List.map_map]
    congr 1
    apply List.map_congr_left
    intro j hj
    simp only [Function.comp_apply, Event.setProgress.injEq]
    push_cast
    ring


theorem createZip_ok_events (now : DateTime) (s : MState)
    (hne : ¬ s.files.length = 0) :
    (createZip now BuildOutcome.ok s).2 =
      Event.setCreating true :: Event.setProgress 0 ::
        (((List.range s.files.length).map (fun j =>
            Event.setProgress
              (((j + 1 : Nat) : ℚ) / (s.files.length : ℚ) * 50)) ++
          [Event.setProgress 75, Event.setProgress 100,
            Event.download (zipFileName now) (zipAddAll [] s.files),
            Event.toastSuccess
              "ZIP file created and downloaded successfully!"]) ++
          [Event.setCreating false, Event.setProgress 0]) := by
  have hloop := zipLoop_no_throw BuildOutcome.ok (fun i => rfl) s.files.length
    0 [] s.files
  have hmap : (List.range s.files.length).map (fun j =>
      Event.setProgress ((((0 + j : Nat) : ℚ) + 1) /
        (s.files.length : ℚ) * 50)) =
      (List.range s.files.length).map (fun j =>
        Event.setProgress (((j + 1 : Nat) : ℚ) / (s.files.length : ℚ) * 50)) := by
    apply List.map_congr_left
    intro j hj
    simp only [Event.setProgress.injEq]
    push_cast
    ring
  simp only [createZip, hne, if_false, tryBody, hloop, hmap]
  simp

theorem progressValues_map_setProgress (g : Nat → ℚ) (l : List Nat) :
    progressValues (l.map (fun j => Event.setProgress (g j))) = l.map g := by
  induction l with
  | nil => rfl
  | cons a l ih => simpa [progressValues, List.filterMap_cons] using ih

theorem checkpoints_chain (n : Nat) :
    List.Chain' (fun a b => a < b) (checkpoints n) := by
  rw [checkpoints, List.chain'_map]
  cases n with
  | zero => simp
  | succ m =>
    refine (List.chain'_range_succ _ m).mpr ?_
    intro k hk
    have hn : (0 : ℚ) < ((m + 1 : Nat) : ℚ) := by positivity
    have h1 : ((k + 1 : Nat) : ℚ) / ((m + 1 : Nat) : ℚ) <
        ((k.succ + 1 : Nat) : ℚ) / ((m + 1 : Nat) : ℚ) := by
      rw [div_lt_div_iff_of_pos_right hn]
      push_cast
      linarith
    exact mul_lt_mul_of_pos_right h1 (by norm_num)

theorem checkpoints_getLast (n : Nat) (h : ¬ n = 0) :
    (checkpoints n).getLast? = some 50 := by
  cases n with
  | zero => exact absurd rfl h
  | succ m =>
    rw [checkpoints, List.range_succ, List.map_append, List.map_cons,
      List.map_nil, List.getLast?_concat]
    have hm : ((m + 1 : Nat) : ℚ) ≠ 0 := by positivity
    congr 1
    rw [div_self hm, one_mul]

/-- Claim C8: during a successful build over a non-empty list of `n` staged
files the progress values set are exactly `0`, then the `n` strictly
increasing per-file checkpoints `(i+1)/n*50` for `i = 0 .. n-1` (the last
being `50`), then `75`, then `100`, then the reset to `0` after
completion. -/
theorem createZip_progress_sequence (now : DateTime) (s : MState)
    (hne : s.files ≠ []) :
    progressValues (createZip now BuildOutcome.ok s).2 =
      0 :: (checkpoints s.files.length ++ [75, 100, 0])
    ∧ List.Chain' (fun a b => a < b) (checkpoints s.files.length)
    ∧ (checkpoints s.files.length).getLast? = some 50 := by
  have hl : ¬ s.files.length = 0 := by simpa [List.length_eq_zero] using hne
  refine ⟨?_, checkpoints_chain _, checkpoints_getLast _ hl⟩
  rw [createZip_ok_events now s hl]
  have hm := progressValues_map_setProgress
    (fun j => ((j + 1 : Nat) : ℚ) / (s.files.length : ℚ) * 50)
    (List.range s.files.length)
  simp only [progressValues, List.filterMap_cons, List.filterMap_append] at hm ⊢
  rw [hm]
  simp [checkpoints]

/-- Witness for C8 at a concrete two-file state. -/
theorem createZip_progress_sequence_witness :
    progressValues (createZip sampleDate BuildOutcome.ok twoFileState).2 =
      0 :: (checkpoints twoFileState.files.length ++ [75, 100, 0]) :=
  (createZip_progress_sequence sampleDate twoFileState (by decide)).1

theorem zipLoop_throws (k n : Nat) :
    ∀ (i : Nat) (ar : Archive) (fs : List FileItem), i ≤ k →
      k < i + fs.length →
      (zipLoop (BuildOutcome.failAdd k) n i ar fs).2 = none := by
  intro i ar fs
  induction fs generalizing i ar with
  | nil => intro h1 h2; simp at h2; omega
  | cons fi fs ih =>
    intro h1 h2
    by_cases hk : k = i
    · simp [zipLoop, throwsAt, hk]
    · have ht : throwsAt (BuildOutcome.failAdd k) i = false := by
        simp [throwsAt]
        omega
      simp only [zipLoop, ht, Bool.false_eq_true, if_false]
      exact ih (i + 1) _ (by omega) (by simp at h2 ⊢; omega)

theorem tryBody_fails (now : DateTime) (out : BuildOutcome)
    (files : List FileItem) (h : failsFor out files.length = true) :
    (tryBody now out files).2 = false
    ∧ ∀ e ∈ (tryBody now out files).1, ∃ p, e = Event.setProgress p := by
  cases out with
  | ok => simp [failsFor] at h
  | failAdd k =>
    have hk : k < files.length := by simpa [failsFor] using h
    have h2 := zipLoop_throws k files.length 0 [] files (Nat.zero_le k)
      (by omega)
    rcases h3 : zipLoop (BuildOutcome.failAdd k) files.length 0 [] files
      with ⟨evs, res⟩
    rw [h3] at h2
    simp only at h2
    subst h2
    constructor
    · simp [tryBody, h3]
    · intro e he
      simp only [tryBody, h3] at he
      have := zipLoop_events_progress (BuildOutcome.failAdd k) files.length
        0 [] files e
      rw [h3] at this
      exact this he
  | failGenerate =>
    have hloop := zipLoop_no_throw BuildOutcome.failGenerate (fun i => rfl)
      files.length 0 [] files
    constructor
    · simp [tryBody, hloop]
    · intro e he
      simp only [tryBody, hloop] at he
      simp only [List.mem_append] at he
      rcases he with he | he
      · obtain ⟨j, hj, rfl⟩ := List.mem_map.mp he
        exact ⟨_, rfl⟩
      · simp at he
        exact ⟨_, he⟩

/-- Claim C3: a failure anywhere during archive construction or
serialization is caught at the build boundary: the trace carries exactly one
generic user-facing failure toast plus the diagnostic log, no raw exception
reaches the caller (`createZip` is a total function whose catch branch is
the only error path), no download happens, the staging collection is left
unchanged, and in every outcome (success or failure) the builder resets to
Idle with progress 0. -/
theorem createZip_error_handling (now : DateTime) (out : BuildOutcome)
    (s : MState) (hne : s.files ≠ []) :
    ((createZip now out s).1.files = s.files
      ∧ (createZip now out s).1.isCreatingZip = false
      ∧ (createZip now out s).1.zipProgress = 0)
    ∧ (failsFor out s.files.length = true →
        errorToasts (createZip now out s).2 = ["Failed to create ZIP file"]
        ∧ Event.consoleError ∈ (createZip now out s).2
        ∧ downloadEvents (createZip now out s).2 = []) := by
  have hl : ¬ s.files.length = 0 := by simpa [List.length_eq_zero] using hne
  constructor
  · exact ⟨createZip_files_frame now out s, by simp [createZip, hl],
      by simp [createZip, hl]⟩
  · intro hf
    obtain ⟨hb2, hbody⟩ := tryBody_fails now out s.files hf
    have herr : errorToasts (tryBody now out s.files).1 = [] :=
      filterMapProj_nil _ _ (fun p => rfl) hbody
    have hdl : downloadEvents (tryBody now out s.files).1 = [] :=
      filterMapProj_nil _ _ (fun p => rfl) hbody
    refine ⟨?_, ?_, ?_⟩
    · simp only [createZip, hl, if_false, hb2, Bool.false_eq_true]
      simp only [errorToasts, List.filterMap_cons, List.filterMap_append] at herr ⊢
      simp [herr]
    · simp [createZip, hl, hb2]
    · simp only [createZip, hl, if_false, hb2, Bool.false_eq_true]
      simp only [downloadEvents, List.filterMap_cons, List.filterMap_append]
        at hdl ⊢
      simp [hdl]

/-- Witness for C3: a concrete failing build (serialization throws) over the
concrete two-file state. -/
theorem createZip_error_handling_witness :
    errorToasts
        (createZip sampleDate BuildOutcome.failGenerate twoFileState).2 =
      ["Failed to create ZIP file"] :=
  ((createZip_error_handling sampleDate BuildOutcome.failGenerate twoFileState
    (by decide)).2 (by decide)).1

/-! ## Archive entry bookkeeping -/

theorem zipAdd_not_mem (ar : Archive) (n : String) (b : List Nat)
    (h : ¬ n ∈ entryNames ar) : zipAdd ar n b = ar ++ [(n, b)] := by
  have ha : ar.any (fun e => e.1 == n) = false := by
    rw [List.any_eq_false]
    intro e he
    simp only [beq_iff_eq]
    intro heq
    exact h (List.mem_map.mpr ⟨e, he, heq⟩)
  simp [zipAdd, ha]

theorem zipAdd_cons_ne (e : String × List Nat) (ar : Archive) (n : String)
    (b : List Nat) (h : ¬ e.1 = n) :
    zipAdd (e :: ar) n b = e :: zipAdd ar n b := by
  by_cases ha : ar.any (fun x => x.1 == n)
  · simp [zipAdd, List.any_cons, h, ha]
  · simp [zipAdd, List.any_cons, h, ha]

theorem zipAdd_cons_eq (e : String × List Nat) (ar : Archive) (b : List Nat)
    (h : ¬ e.1 ∈ entryNames ar) :
    zipAdd (e :: ar) e.1 b = (e.1, b) :: ar := by
  have ha : (e :: ar).any (fun x => x.1 == e.1) = true := by simp
  have hmap : ∀ x ∈ ar,
      (if x.1 == e.1 then (e.1, b) else x) = x := by
    intro x hx
    rw [if_neg]
    simp only [beq_iff_eq]
    intro heq
    exact h (List.mem_map.mpr ⟨x, hx, heq⟩)
  simp only [zipAdd, ha, if_true, List.map_cons, beq_self_eq_true, if_pos]
  congr 1
  calc ar.map (fun x => if x.1 == e.1 then (e.1, b) else x)
      = ar.map id := List.map_congr_left hmap
    _ = ar := List.map_id ar

theorem zipAddAll_nodup (files : List FileItem) :
    ∀ ar : Archive,
      (entryNames ar ++ files.map (fun fi => fi.file.name)).Nodup →
      zipAddAll ar files =
        ar ++ files.map (fun fi => (fi.file.name, fi.file.content)) := by
  induction files with
  | nil => intro ar h; simp [zipAddAll]
  | cons fi fs ih =>
    intro ar h
    have hn : ¬ fi.file.name ∈ entryNames ar := by
      rw [List.nodup_append] at h
      intro hmem
      exact h.2.2 hmem (by simp)
    rw [zipAddAll, zipAdd_not_mem ar _ _ hn, ih]
    · simp
    · have he : entryNames (ar ++ [(fi.file.name, fi.file.content)]) =
          entryNames ar ++ [fi.file.name] := by simp [entryNames]
      rw [he, List.append_assoc]
      simpa using h

theorem downloadEvents_ok (now : DateTime) (s : MState)
    (hl : ¬ s.files.length = 0) :
    downloadEvents (createZip now BuildOutcome.ok s).2 =
      [(zipFileName now, zipAddAll [] s.files)] := by
  rw [createZip_ok_events now s hl]
  have hmap : downloadEvents ((List.range s.files.length).map (fun j =>
      Event.setProgress (((j + 1 : Nat) : ℚ) / (s.files.length : ℚ) * 50))) =
      [] := by
    apply filterMapProj_nil
    · intro p; rfl
    · intro e he
      obtain ⟨j, hj, rfl⟩ := List.mem_map.mp he
      exact ⟨_, rfl⟩
  simp only [downloadEvents, List.filterMap_cons, List.filterMap_append]
    at hmap ⊢
  simp [hmap]

theorem lookupA_map_nodup (files : List FileItem)
    (h : (files.map (fun fi => fi.file.name)).Nodup) :
    ∀ fi ∈ files,
      lookupA (files.map (fun g => (g.file.name, g.file.content)))
        fi.file.name = some fi.file.content := by
  induction files with
  | nil => simp
  | cons g fs ih =>
    intro fi hfi
    rcases List.mem_cons.mp hfi with rfl | hfi
    · simp [lookupA, List.find?_cons_of_pos]
    · have hg : ¬ ((g.file.name, g.file.content).1 == fi.file.name) = true := by
        simp only [beq_iff_eq]
        intro heq
        rw [List.map_cons, List.nodup_cons] at h
        exact h.1 (heq ▸ List.mem_map.mpr ⟨fi, hfi, rfl⟩)
      rw [List.map_cons, List.nodup_cons] at h
      rw [lookupA, List.map_cons,
        @List.find?_cons_of_neg _
          (fun e : String × List Nat => e.1 == fi.file.name) _ _ hg]
      simpa [lookupA] using ih h.2 fi hfi

/-- Claim C1 (amended): for every non-empty staged list whose file names are
pairwise distinct, a successful build triggers exactly one download side
effect; its archive has exactly one top-level entry per staged file, under
the original name and carrying exactly the original bytes (extracting any
entry reproduces them), and its filename matches
`file-fling-\d{4}-\d{2}-\d{2}T\d{2}-\d{2}-\d{2}\.zip`.  (As stated — over
every non-empty staged list — the claim fails when two staged files share a
name, because a later `zip.file` overwrites the earlier entry: see the
counterexample.) -/
theorem createZip_success_spec (now : DateTime) (s : MState)
    (hne : s.files ≠ [])
    (hnames : (s.files.map (fun fi => fi.file.name)).Nodup)
    (hv : now.Valid) :
    downloadEvents (createZip now BuildOutcome.ok s).2 =
      [(zipFileName now,
        s.files.map (fun fi => (fi.file.name, fi.file.content)))]
    ∧ patMatch fileFlingPat (zipFileName now).data = true
    ∧ ∀ fi ∈ s.files,
        lookupA (s.files.map (fun g => (g.file.name, g.file.content)))
          fi.file.name = some fi.file.content := by
  have hl : ¬ s.files.length = 0 := by simpa [List.length_eq_zero] using hne
  have hall : zipAddAll [] s.files =
      s.files.map (fun fi => (fi.file.name, fi.file.content)) := by
    have := zipAddAll_nodup s.files [] (by simpa [entryNames] using hnames)
    simpa using this
  exact ⟨by rw [downloadEvents_ok now s hl, hall],
    zipFileName_matchesPattern now, lookupA_map_nodup s.files hnames⟩

/-- Witness for C1 (amended) at a concrete two-file state and clock. -/
theorem createZip_success_spec_witness :
    downloadEvents (createZip sampleDate BuildOutcome.ok twoFileState).2 =
      [(zipFileName sampleDate,
        twoFileState.files.map (fun fi => (fi.file.name, fi.file.content)))] :=
  (createZip_success_spec sampleDate twoFileState (by decide) (by decide)
    (by decide)).1

/-- Claim C1 counterexample: with two staged files both named `a.txt`, the
archive of a successful build has a single entry, not one entry per staged
file. -/
theorem createZip_dup_name_counterexample :
    dupNameState.files.length = 2
    ∧ (downloadEvents
        (createZip sampleDate BuildOutcome.ok dupNameState).2).length = 1
    ∧ (downloadEvents (createZip sampleDate BuildOutcome.ok dupNameState).2).map
        (fun d => d.2.length) = [1] := by
  refine ⟨rfl, ?_, ?_⟩ <;> decide

theorem entryNames_zipAdd (ar : Archive) (n : String) (b : List Nat) :
    entryNames (zipAdd ar n b) =
      if n ∈ entryNames ar then entryNames ar else entryNames ar ++ [n] := by
  by_cases hm : n ∈ entryNames ar
  · have ha : ar.any (fun e => e.1 == n) = true := by
      rw [List.any_eq_true]
      obtain ⟨e, he, heq⟩ := List.mem_map.mp hm
      exact ⟨e, he, by simp [heq]⟩
    rw [if_pos hm]
    simp only [zipAdd, ha, if_true, entryNames, List.map_map]
    apply List.map_congr_left
    intro e he
    simp only [Function.comp_apply]
    by_cases hbe : e.1 = n
    · rw [if_pos (by simpa using hbe)]
      exact hbe.symm
    · rw [if_neg (by simpa using hbe)]
  · rw [if_neg hm, zipAdd_not_mem ar n b hm]
    simp [entryNames]

theorem entryNames_zipAdd_nodup (ar : Archive) (n : String) (b : List Nat)
    (h : (entryNames ar).Nodup) : (entryNames (zipAdd ar n b)).Nodup := by
  rw [entryNames_zipAdd]
  by_cases hm : n ∈ entryNames ar
  · simpa [hm] using h
  · simp only [hm, if_false]
    rw [List.nodup_append]
    refine ⟨h, List.nodup_singleton n, ?_⟩
    intro a ha hb
    simp only [List.mem_singleton] at hb
    exact hm (hb ▸ ha)

theorem mem_entryNames_zipAdd (ar : Archive) (n : String) (b : List Nat)
    (m : String) :
    m ∈ entryNames (zipAdd ar n b) ↔ m ∈ entryNames ar ∨ m = n := by
  rw [entryNames_zipAdd]
  by_cases hm : n ∈ entryNames ar
  · simp only [hm, if_true]
    constructor
    · exact Or.inl
    · rintro (h | rfl)
      · exact h
      · exact hm
  · simp [hm]

theorem entryNames_zipAddAll_nodup (files : List FileItem) :
    ∀ ar : Archive, (entryNames ar).Nodup →
      (entryNames (zipAddAll ar files)).Nodup := by
  induction files with
  | nil => intro ar h; simpa [zipAddAll] using h
  | cons fi fs ih =>
    intro ar h
    exact ih _ (entryNames_zipAdd_nodup ar _ _ h)

theorem mem_entryNames_zipAddAll (files : List FileItem) :
    ∀ (ar : Archive) (m : String),
      m ∈ entryNames (zipAddAll ar files) ↔
        m ∈ entryNames ar ∨ m ∈ files.map (fun fi => fi.file.name) := by
  induction files with
  | nil => intro ar m; simp [zipAddAll]
  | cons fi fs ih =>
    intro ar m
    rw [zipAddAll, ih, mem_entryNames_zipAdd]
    simp only [List.map_cons, List.mem_cons]
    constructor
    · rintro ((h | rfl) | h)
      · exact Or.inl h
      · exact Or.inr (Or.inl rfl)
      · exact Or.inr (Or.inr h)
    · rintro (h | rfl | h)
      · exact Or.inl (Or.inl h)
      · exact Or.inl (Or.inr rfl)
      · exact Or.inr h

theorem lookupA_cons (e : String × List Nat) (ar : Archive) (m : String) :
    lookupA (e :: ar) m =
      if e.1 = m then some e.2 else lookupA ar m := by
  by_cases h : e.1 = m
  · rw [lookupA, List.find?_cons_of_pos _ (by simpa using h), if_pos h]
    rfl
  · rw [lookupA, List.find?_cons_of_neg _ (by simpa using h), if_neg h]
    rfl

theorem lookupA_zipAdd (ar : Archive) (n : String) (b : List Nat)
    (m : String) (h : (entryNames ar).Nodup) :
    lookupA (zipAdd ar n b) m = if m = n then some b else lookupA ar m := by
  induction ar with
  | nil =>
    rw [zipAdd_not_mem [] n b (by simp [entryNames])]
    rw [List.nil_append, lookupA_cons]
    by_cases hmn : m = n
    · rw [if_pos hmn, if_pos (hmn ▸ rfl : (n, b).1 = m)]
    · have h1 : ¬ (n, b).1 = m := fun hh => hmn (by simpa using hh.symm)
      rw [if_neg h1, if_neg hmn]
  | cons e ar ih =>
    rw [entryNames, List.map_cons, List.nodup_cons] at h
    by_cases hen : e.1 = n
    · rw [← hen, zipAdd_cons_eq e ar b (hen ▸ h.1), lookupA_cons, lookupA_cons]
      by_cases hmn : m = e.1
      · rw [if_pos (show (e.1, b).1 = m from hmn.symm), if_pos hmn]
      · have h1 : ¬ (e.1, b).1 = m := fun hh => hmn (by simpa using hh.symm)
        rw [if_neg h1, if_neg hmn, if_neg (Ne.symm hmn)]
    · rw [zipAdd_cons_ne e ar n b hen, lookupA_cons, lookupA_cons,
        ih h.2]
      by_cases hmn : m = n
      · have h1 : ¬ e.1 = m := fun hh => hen (hh.trans hmn)
        rw [if_neg h1, if_pos hmn, if_pos hmn]
      · rw [if_neg hmn, if_neg hmn]

theorem lookupA_zipAddAll (files : List FileItem) :
    ∀ (ar : Archive) (m : String), (entryNames ar).Nodup →
      lookupA (zipAddAll ar files) m =
        ((files.reverse.find? (fun fi => fi.file.name == m)).map
          (fun fi => fi.file.content)).or (lookupA ar m) := by
  induction files with
  | nil => intro ar m h; simp [zipAddAll]
  | cons fi fs ih =>
    intro ar m h
    rw [zipAddAll, ih _ m (entryNames_zipAdd_nodup ar _ _ h),
      lookupA_zipAdd ar _ _ m h]
    rw [List.reverse_cons, List.find?_append]
    rcases hf : fs.reverse.find? (fun g => g.file.name == m) with _ | g
    · simp only [hf, Option.none_or, Option.map_none]
      by_cases hm : m = fi.file.name
      · rw [if_pos hm]
        have : List.find? (fun g => g.file.name == m) [fi] = some fi := by
          simp [List.find?, hm]
        rw [this]
        rfl
      · rw [if_neg hm]
        have hne2 : ¬ (fi.file.name == m) = true := by
          simp only [beq_iff_eq]
          exact fun hh => hm hh.symm
        have hfind : List.find? (fun g => g.file.name == m) [fi] = none := by
          simp only [List.find?, hne2]
        rw [hfind]
    · rw [hf]
      rfl

theorem zipAddAll_length_dedup (files : List FileItem) :
    (zipAddAll [] files).length =
      (files.map (fun fi => fi.file.name)).dedup.length := by
  have h1 : (entryNames (zipAddAll [] files)).Nodup :=
    entryNames_zipAddAll_nodup files [] (by simp [entryNames])
  have h2 : ∀ m, m ∈ entryNames (zipAddAll [] files) ↔
      m ∈ files.map (fun fi => fi.file.name) := by
    intro m
    rw [mem_entryNames_zipAddAll]
    simp [entryNames]
  have hperm : (entryNames (zipAddAll [] files)).Perm
      (files.map (fun fi => fi.file.name)).dedup := by
    apply List.perm_of_nodup_nodup_toFinset_eq h1 (List.nodup_dedup _)
    ext m
    simp only [List.mem_toFinset, List.mem_dedup]
    exact h2 m
  have hlen := hperm.length_eq
  simpa [entryNames] using hlen

theorem dedup_length_lt {l : List String} (h : ¬ l.Nodup) :
    l.dedup.length < l.length := by
  rcases Nat.lt_or_ge l.dedup.length l.length with h1 | h1
  · exact h1
  · exfalso
    have hsub := List.dedup_sublist l
    have heq := hsub.eq_of_length (Nat.le_antisymm hsub.length_le h1)
    exact h (heq ▸ List.nodup_dedup l)

/-- Claim C10: when two or more staged files share a file name, a successful
build still downloads a single archive, but each `zip.file` call under an
existing name overwrites the previous entry: the archive has exactly one
entry per distinct staged name — strictly fewer entries than staged files —
and the entry under any staged name holds the bytes of the last staged file
with that name. -/
theorem createZip_overwrites_duplicates (now : DateTime) (s : MState)
    (hne : s.files ≠ [])
    (hdup : ¬ (s.files.map (fun fi => fi.file.name)).Nodup) :
    downloadEvents (createZip now BuildOutcome.ok s).2 =
      [(zipFileName now, zipAddAll [] s.files)]
    ∧ (zipAddAll [] s.files).length =
        (s.files.map (fun fi => fi.file.name)).dedup.length
    ∧ (zipAddAll [] s.files).length < s.files.length
    ∧ ∀ m ∈ s.files.map (fun fi => fi.file.name),
        lookupA (zipAddAll [] s.files) m =
          (s.files.reverse.find? (fun fi => fi.file.name == m)).map
            (fun fi => fi.file.content) := by
  have hl : ¬ s.files.length = 0 := by simpa [List.length_eq_zero] using hne
  refine ⟨downloadEvents_ok now s hl, zipAddAll_length_dedup s.files, ?_, ?_⟩
  · rw [zipAddAll_length_dedup s.files]
    have := dedup_length_lt hdup
    simpa using this
  · intro m hm
    rw [lookupA_zipAddAll s.files [] m (by simp [entryNames])]
    simp [lookupA]

/-- Witness for C10 at the concrete duplicate-name state: two staged files,
one archive entry. -/
theorem createZip_overwrites_duplicates_witness :
    (zipAddAll [] dupNameState.files).length < dupNameState.files.length :=
  (createZip_overwrites_duplicates sampleDate dupNameState (by decide)
    (by decide)).2.2.1

/-! ## Staging a batch of files -/

theorem stageList_cons (env : Env) (i u : Nat) (f : RawFile)
    (fs : List RawFile) :
    stageList env i u (f :: fs) =
      if isImage f then
        ⟨⟨env.idAt i, f, some (env.urlAt u)⟩ ::
            (stageList env (i + 1) (u + 1) fs).items,
          (stageList env (i + 1) (u + 1) fs).idCtr,
          (stageList env (i + 1) (u + 1) fs).urlCtr,
          Event.createURL (env.urlAt u) ::
            (stageList env (i + 1) (u + 1) fs).events⟩
      else
        ⟨⟨env.idAt i, f, none⟩ :: (stageList env (i + 1) u fs).items,
          (stageList env (i + 1) u fs).idCtr,
          (stageList env (i + 1) u fs).urlCtr,
          (stageList env (i + 1) u fs).events⟩ := rfl

theorem stageList_items_length (env : Env) (raws : List RawFile) :
    ∀ i u, (stageList env i u raws).items.length = raws.length := by
  induction raws with
  | nil => intro i u; rfl
  | cons f fs ih =>
    intro i u
    rw [stageList_cons]
    by_cases himg : isImage f
    · rw [if_pos himg]
      simp [ih]
    · rw [if_neg himg]
      simp [ih]

theorem stageList_items_file (env : Env) (raws : List RawFile) :
    ∀ i u, (stageList env i u raws).items.map (fun fi => fi.file) = raws := by
  induction raws with
  | nil => intro i u; rfl
  | cons f fs ih =>
    intro i u
    rw [stageList_cons]
    by_cases himg : isImage f
    · rw [if_pos himg]
      simp [ih]
    · rw [if_neg himg]
      simp [ih]

theorem stageList_get (env : Env) (raws : List RawFile) :
    ∀ i u j, j < raws.length →
      (stageList env i u raws).items[j]?.map (fun fi => fi.id) =
          some (env.idAt (i + j))
      ∧ (stageList env i u raws).items[j]?.map (fun fi => fi.preview.isSome)
          = raws[j]?.map isImage := by
  induction raws with
  | nil => intro i u j hj; simp at hj
  | cons f fs ih =>
    intro i u j hj
    rw [stageList_cons]
    by_cases himg : isImage f
    · rw [if_pos himg]
      dsimp only
      cases j with
      | zero => constructor <;> simp [himg]
      | succ j =>
        have hj3 : j < fs.length := by simpa using hj
        obtain ⟨h1, h2⟩ := ih (i + 1) (u + 1) j hj3
        rw [List.getElem?_cons_succ, List.getElem?_cons_succ]
        constructor
        · rw [show i + (j + 1) = i + 1 + j by omega]
          exact h1
        · exact h2
    · rw [if_neg himg]
      dsimp only
      cases j with
      | zero =>
        constructor <;> simp [Bool.eq_false_iff.mpr himg]
      | succ j =>
        have hj3 : j < fs.length := by simpa using hj
        obtain ⟨h1, h2⟩ := ih (i + 1) u j hj3
        rw [List.getElem?_cons_succ, List.getElem?_cons_succ]
        constructor
        · rw [show i + (j + 1) = i + 1 + j by omega]
          exact h1
        · exact h2

theorem stageList_events_create (env : Env) (raws : List RawFile) :
    ∀ i u e, e ∈ (stageList env i u raws).events →
      ∃ v, e = Event.createURL v := by
  induction raws with
  | nil => intro i u e he; simp [stageList] at he
  | cons f fs ih =>
    intro i u e he
    rw [stageList_cons] at he
    by_cases himg : isImage f
    · rw [if_pos himg] at he
      rcases List.mem_cons.mp he with rfl | he2
      · exact ⟨_, rfl⟩
      · exact ih _ _ e he2
    · rw [if_neg himg] at he
      exact ih _ _ e he

/-- Claim C6: adding a sequence of N raw files appends exactly N staged
entries at the end, preserving input order and leaving the existing entries
untouched; each new entry is assigned the next fresh id drawn from the
random-id supply; a preview handle is allocated exactly for files whose MIME
type starts with `image/`; and one success toast carrying the count added is
emitted. -/
theorem addFiles_spec (env : Env) (raws : List RawFile) (s : MState) :
    (addFiles env raws s).1.files.length = s.files.length + raws.length
    ∧ (addFiles env raws s).1.files.take s.files.length = s.files
    ∧ ((addFiles env raws s).1.files.drop s.files.length).map
        (fun fi => fi.file) = raws
    ∧ (∀ j, j < raws.length →
        ((addFiles env raws s).1.files.drop s.files.length)[j]?.map
            (fun fi => fi.id) = some (env.idAt (s.idCtr + j))
        ∧ ((addFiles env raws s).1.files.drop s.files.length)[j]?.map
            (fun fi => fi.preview.isSome) = raws[j]?.map isImage)
    ∧ successToasts (addFiles env raws s).2 =
        ["Added " ++ toString raws.length ++ " file(s)"] := by
  have hfiles : (addFiles env raws s).1.files =
      s.files ++ (stageList env s.idCtr s.urlCtr raws).items := rfl
  have hdrop : (addFiles env raws s).1.files.drop s.files.length =
      (stageList env s.idCtr s.urlCtr raws).items := by
    rw [hfiles, List.drop_left]
  refine ⟨?_, ?_, ?_, ?_, ?_⟩
  · rw [hfiles, List.length_append, stageList_items_length]
  · rw [hfiles, List.take_left]
  · rw [hdrop, stageList_items_file]
  · intro j hj
    rw [hdrop]
    exact stageList_get env raws s.idCtr s.urlCtr j hj
  · have hev : (addFiles env raws s).2 =
        (stageList env s.idCtr s.urlCtr raws).events ++
          [Event.toastSuccess
            ("Added " ++ toString raws.length ++ " file(s)")] := rfl
    have hnil : successToasts
        (stageList env s.idCtr s.urlCtr raws).events = [] := by
      rw [successToasts, List.filterMap_eq_nil_iff]
      intro e he
      obtain ⟨v, rfl⟩ := stageList_events_create env raws _ _ e he
      rfl
    rw [successToasts] at hnil
    rw [hev, successToasts, List.filterMap_append, hnil]
    rfl

/-- Witness for C6 at a concrete two-file batch over the mount state. -/
theorem addFiles_spec_witness :
    (addFiles envW [txtFile, pngFile] initState).1.files.length =
      initState.files.length + [txtFile, pngFile].length :=
  (addFiles_spec envW [txtFile, pngFile] initState).1

/-! ## Removal by id -/

theorem removeFile_files (id : String) (s : MState) :
    (removeFile id s).1.files = s.files.filter (fun f => f.id != id) := rfl

theorem removeFile_events (id : String) (s : MState) :
    (removeFile id s).2 =
      match s.files.find? (fun f => f.id == id) with
      | some fi =>
        match fi.preview with
        | some u => [Event.revokeURL u]
        | none => []
      | none => [] := rfl

theorem find?_filter_decomp (id : String) (l : List FileItem)
    (hnd : (l.map (fun fi => fi.id)).Nodup) (fi : FileItem)
    (hfind : l.find? (fun f => f.id == id) = some fi) :
    fi ∈ l ∧ fi.id = id ∧
      ∃ l1 l2, l = l1 ++ fi :: l2 ∧
        l.filter (fun f => f.id != id) = l1 ++ l2 := by
  induction l with
  | nil => simp at hfind
  | cons g fs ih =>
    rw [List.map_cons, List.nodup_cons] at hnd
    by_cases hg : (g.id == id) = true
    · rw [@List.find?_cons_of_pos _ (fun f : FileItem => f.id == id) g fs hg]
        at hfind
      have hgfi : g = fi := Option.some.inj hfind
      have hgeq : g.id = id := beq_iff_eq.mp hg
      have hgid : fi.id = id := by rw [← hgfi]; exact hgeq
      have htail : fs.filter (fun f => f.id != id) = fs := by
        rw [List.filter_eq_self]
        intro a ha
        simp only [bne_iff_ne, ne_eq]
        intro heq
        exact hnd.1 (List.mem_map.mpr ⟨a, ha, heq.trans hgeq.symm⟩)
      have hgfalse : (g.id != id) = false := by
        simp [bne_iff_ne, hgeq]
      refine ⟨by rw [hgfi]; exact List.mem_cons_self _ _, hgid, [], fs,
        by rw [hgfi]; rfl, ?_⟩
      rw [List.filter_cons, hgfalse]
      simpa using htail
    · rw [@List.find?_cons_of_neg _ (fun f : FileItem => f.id == id) g fs hg]
        at hfind
      obtain ⟨hmem, hid, l1, l2, hsplit, hfilter⟩ := ih hnd.2 hfind
      refine ⟨List.mem_cons_of_mem g hmem, hid, g :: l1, l2, by rw [hsplit]; rfl, ?_⟩
      rw [List.filter_cons]
      have : (g.id != id) = true := by
        simpa [bne_iff_ne] using hg
      rw [this]
      simp only [if_true]
      rw [hfilter]
      rfl

/-- Claim C5 (amended): over a staging collection whose ids are pairwise
distinct — the uniqueness the random-id scheme is assumed to provide —
`removeFile id` for a staged id removes exactly the matching entry,
decreasing the length by exactly 1 and keeping every other entry in order,
and revokes that entry's preview handle if it has one; removing an id that
is not staged leaves the collection unchanged and revokes nothing.  (As
stated — over every staging collection — the claim fails when two entries
share an id, because the filter removes all of them: see the
counterexample.) -/
theorem removeFile_spec (id : String) (s : MState)
    (hnd : (s.files.map (fun fi => fi.id)).Nodup) :
    (id ∈ s.files.map (fun fi => fi.id) →
      (removeFile id s).1.files.length + 1 = s.files.length
      ∧ ∃ fi l1 l2, fi.id = id ∧ s.files = l1 ++ fi :: l2
          ∧ (removeFile id s).1.files = l1 ++ l2
          ∧ (removeFile id s).2 = (fi.preview.map Event.revokeURL).toList)
    ∧ (id ∉ s.files.map (fun fi => fi.id) →
        (removeFile id s).1.files = s.files ∧ (removeFile id s).2 = []) := by
  constructor
  · intro hmem
    have hsome : (s.files.find? (fun f => f.id == id)).isSome = true := by
      rw [List.find?_isSome]
      obtain ⟨fi0, hfi0, hid0⟩ := List.mem_map.mp hmem
      exact ⟨fi0, hfi0, by simp [hid0]⟩
    obtain ⟨fi, hfind⟩ := Option.isSome_iff_exists.mp hsome
    obtain ⟨hmemfi, hidfi, l1, l2, hsplit, hfilter⟩ :=
      find?_filter_decomp id s.files hnd fi hfind
    refine ⟨?_, fi, l1, l2, hidfi, hsplit, ?_, ?_⟩
    · rw [removeFile_files, hfilter, hsplit]
      simp [List.length_append]
      omega
    · rw [removeFile_files, hfilter]
    · rw [removeFile_events, hfind]
      show (match fi.preview with
        | some u => [Event.revokeURL u]
        | none => []) = (fi.preview.map Event.revokeURL).toList
      cases fi.preview <;> rfl
  · intro hmem
    have hfind : s.files.find? (fun f => f.id == id) = none := by
      rw [List.find?_eq_none]
      intro x hx
      simp only [beq_iff_eq]
      intro heq
      exact hmem (List.mem_map.mpr ⟨x, hx, heq⟩)
    have hfilter : s.files.filter (fun f => f.id != id) = s.files := by
      rw [List.filter_eq_self]
      intro a ha
      simp only [bne_iff_ne, ne_eq]
      intro heq
      exact hmem (List.mem_map.mpr ⟨a, ha, heq⟩)
    exact ⟨by rw [removeFile_files, hfilter], by rw [removeFile_events, hfind]⟩

/-- Witness for C5 (amended): removing the staged id `id2` from the concrete
two-file state decreases the length by exactly 1. -/
theorem removeFile_spec_witness :
    (removeFile "id2" twoFileState).1.files.length + 1 =
      twoFileState.files.length :=
  ((removeFile_spec "id2" twoFileState (by decide)).1 (by decide)).1

/-- Claim C5 counterexample: with two staged entries sharing the id `dup`,
`removeFile` with that staged id removes both entries, so the length
decreases by 2 rather than exactly 1. -/
theorem removeFile_dup_id_counterexample :
    "dup" ∈ dupIdState.files.map (fun fi => fi.id)
    ∧ (removeFile "dup" dupIdState).1.files.length + 1 ≠
        dupIdState.files.length := by
  constructor
  · decide
  · decide

/-! ## Preview-handle accounting -/

theorem createdHandles_append (l1 l2 : List Event) :
    createdHandles (l1 ++ l2) = createdHandles l1 ++ createdHandles l2 :=
  List.filterMap_append l1 l2 _

theorem revokedHandles_append (l1 l2 : List Event) :
    revokedHandles (l1 ++ l2) = revokedHandles l1 ++ revokedHandles l2 :=
  List.filterMap_append l1 l2 _

theorem createdHandles_map_createURL (l : List String) :
    createdHandles (l.map Event.createURL) = l := by
  induction l with
  | nil => rfl
  | cons a l ih => simpa [createdHandles, List.filterMap_cons] using ih

theorem revokedHandles_map_revokeURL (l : List String) :
    revokedHandles (l.map Event.revokeURL) = l := by
  induction l with
  | nil => rfl
  | cons a l ih => simpa [revokedHandles, List.filterMap_cons] using ih

theorem range_map_append (f : Nat → String) (a b : Nat) :
    (List.range a).map f ++ (List.range' a b).map f =
      (List.range (a + b)).map f := by
  rw [List.range_add, List.map_append, List.range'_eq_map_range,
    List.map_map]

theorem stageList_shape (env : Env) (raws : List RawFile) :
    ∀ i u,
      (stageList env i u raws).items.filterMap (fun fi => fi.preview) =
        (List.range' u ((raws.filter isImage).length)).map env.urlAt
      ∧ (stageList env i u raws).events =
        ((List.range' u ((raws.filter isImage).length)).map env.urlAt).map
          Event.createURL
      ∧ (stageList env i u raws).urlCtr = u + (raws.filter isImage).length
      ∧ (stageList env i u raws).idCtr = i + raws.length
      ∧ (stageList env i u raws).items.map (fun fi => fi.id) =
        (List.range' i raws.length).map env.idAt := by
  induction raws with
  | nil =>
    intro i u
    refine ⟨rfl, rfl, by simp [stageList], by simp [stageList], rfl⟩
  | cons f fs ih =>
    intro i u
    rw [stageList_cons]
    by_cases himg : isImage f
    · rw [if_pos himg]
      obtain ⟨hp, he, hu, hi, hids⟩ := ih (i + 1) (u + 1)
      have hfil : (f :: fs).filter isImage = f :: fs.filter isImage := by
        rw [List.filter_cons, if_pos himg]
      dsimp only
      rw [hfil]
      refine ⟨?_, ?_, ?_, ?_, ?_⟩
      · rw [List.filterMap_cons]
        simp only [List.length_cons, List.range'_succ, List.map_cons]
        rw [hp]
      · simp only [List.length_cons, List.range'_succ, List.map_cons]
        rw [he]
      · rw [hu]
        simp only [List.length_cons]
        omega
      · rw [hi]
        simp only [List.length_cons]
        omega
      · simp only [List.map_cons, List.length_cons, List.range'_succ]
        rw [hids]
    · rw [if_neg himg]
      obtain ⟨hp, he, hu, hi, hids⟩ := ih (i + 1) u
      have hfil : (f :: fs).filter isImage = fs.filter isImage := by
        rw [List.filter_cons, if_neg himg]
      dsimp only
      rw [hfil]
      refine ⟨?_, ?_, ?_, ?_, ?_⟩
      · rw [List.filterMap_cons]
        exact hp
      · exact he
      · exact hu
      · rw [hi]
        simp only [List.length_cons]
        omega
      · simp only [List.map_cons, List.length_cons, List.range'_succ]
        rw [hids]

theorem tryBody_events_shape (now : DateTime) (out : BuildOutcome)
    (files : List FileItem) :
    ∀ e ∈ (tryBody now out files).1,
      (∃ p, e = Event.setProgress p) ∨ (∃ f b, e = Event.download f b)
      ∨ (∃ m, e = Event.toastSuccess m) := by
  intro e he
  rcases hres : zipLoop out files.length 0 [] files with ⟨evs, res⟩
  have hloop : ∀ x ∈ evs, ∃ p, x = Event.setProgress p := by
    intro x hx
    have h := zipLoop_events_progress out files.length 0 [] files x
    rw [hres] at h
    exact h hx
  simp only [tryBody, hres] at he
  cases res with
  | none => exact Or.inl (hloop e he)
  | some ar =>
    cases out with
    | ok =>
      simp only [List.mem_append, List.mem_cons, List.not_mem_nil, or_false]
        at he
      rcases he with he | rfl | rfl | rfl | rfl
      · exact Or.inl (hloop e he)
      · exact Or.inl ⟨_, rfl⟩
      · exact Or.inl ⟨_, rfl⟩
      · exact Or.inr (Or.inl ⟨_, _, rfl⟩)
      · exact Or.inr (Or.inr ⟨_, rfl⟩)
    | failAdd k =>
      simp only [List.mem_append, List.mem_cons, List.not_mem_nil, or_false]
        at he
      rcases he with he | rfl | rfl | rfl | rfl
      · exact Or.inl (hloop e he)
      · exact Or.inl ⟨_, rfl⟩
      · exact Or.inl ⟨_, rfl⟩
      · exact Or.inr (Or.inl ⟨_, _, rfl⟩)
      · exact Or.inr (Or.inr ⟨_, rfl⟩)
    | failGenerate =>
      simp only [List.mem_append, List.mem_cons, List.not_mem_nil, or_false]
        at he
      rcases he with he | rfl
      · exact Or.inl (hloop e he)
      · exact Or.inl ⟨_, rfl⟩

theorem createZip_no_handles (now : DateTime) (out : BuildOutcome)
    (s : MState) :
    createdHandles (createZip now out s).2 = []
    ∧ revokedHandles (createZip now out s).2 = [] := by
  by_cases hl : s.files.length = 0
  · constructor <;> simp [createZip, hl, createdHandles, revokedHandles]
  · have hshape := tryBody_events_shape now out s.files
    have hc : createdHandles (tryBody now out s.files).1 = [] := by
      rw [createdHandles, List.filterMap_eq_nil_iff]
      intro e he
      rcases hshape e he with ⟨p, rfl⟩ | ⟨f, b, rfl⟩ | ⟨m, rfl⟩ <;> rfl
    have hr : revokedHandles (tryBody now out s.files).1 = [] := by
      rw [revokedHandles, List.filterMap_eq_nil_iff]
      intro e he
      rcases hshape e he with ⟨p, rfl⟩ | ⟨f, b, rfl⟩ | ⟨m, rfl⟩ <;> rfl
    rcases hb : (tryBody now out s.files).2 with _ | _ <;> constructor <;>
      simp [createZip, hl, hb, createdHandles, revokedHandles,
        List.filterMap_cons, List.filterMap_append, hc, hr] <;>
      (intro e he
       rcases hshape e he with ⟨p, rfl⟩ | ⟨f2, b2, rfl⟩ | ⟨m, rfl⟩ <;> rfl)

theorem filterMap_preview_cons (fi : FileItem) (l : List FileItem) :
    (fi :: l).filterMap (fun g => g.preview) =
      fi.preview.toList ++ l.filterMap (fun g => g.preview) := by
  cases hp : fi.preview <;> simp [List.filterMap_cons, hp]

theorem revokedHandles_preview_toList (o : Option String) :
    revokedHandles ((o.map Event.revokeURL).toList) = o.toList := by
  cases o <;> rfl

theorem createdHandles_preview_toList (o : Option String) :
    createdHandles ((o.map Event.revokeURL).toList) = [] := by
  cases o <;> rfl

theorem resInv_build (env : Env) (s : MState) (tr : List Event)
    (now : DateTime) (out : BuildOutcome) (h : ResInv env s tr) :
    ResInv env (createZip now out s).1 (tr ++ (createZip now out s).2) := by
  obtain ⟨h1, h2, h3, h4, h5, h6⟩ := h
  obtain ⟨hc, hr⟩ := createZip_no_handles now out s
  have hfiles := createZip_files_frame now out s
  have hcur : currentPreviews (createZip now out s).1 = currentPreviews s := by
    simp only [currentPreviews, hfiles]
  have hidc : (createZip now out s).1.idCtr = s.idCtr := by
    by_cases hl : s.files.length = 0 <;> simp [createZip, hl]
  have hurlc : (createZip now out s).1.urlCtr = s.urlCtr := by
    by_cases hl : s.files.length = 0 <;> simp [createZip, hl]
  refine ⟨?_, ?_, ?_, ?_, ?_, ?_⟩
  · rw [hfiles]; exact h1
  · rw [hfiles, hidc]; exact h2
  · rw [hcur, hurlc]; exact h3
  · rw [createdHandles_append, hc, List.append_nil, hurlc]; exact h4
  · intro k hk
    rw [hurlc] at hk
    rw [revokedHandles_append, hr, List.append_nil, hcur]
    exact h5 k hk
  · intro u hu
    rw [revokedHandles_append, hr, List.append_nil] at hu
    obtain ⟨k, hk, rfl⟩ := h6 u hu
    exact ⟨k, by rw [hurlc]; exact hk, rfl⟩

theorem resInv_clear (env : Env) (s : MState) (tr : List Event)
    (h : ResInv env s tr) :
    ResInv env (clearAllFiles s).1 (tr ++ (clearAllFiles s).2) := by
  obtain ⟨h1, h2, h3, h4, h5, h6⟩ := h
  have hev : (clearAllFiles s).2 =
      (currentPreviews s).map Event.revokeURL ++
        [Event.toastSuccess "All files cleared"] := rfl
  have hrev : revokedHandles (clearAllFiles s).2 = currentPreviews s := by
    rw [hev, revokedHandles_append, revokedHandles_map_revokeURL]
    simp [revokedHandles]
  have hcrt : createdHandles (clearAllFiles s).2 = [] := by
    rw [hev, createdHandles_append]
    have hx : createdHandles ((currentPreviews s).map Event.revokeURL) = [] := by
      rw [createdHandles, List.filterMap_eq_nil_iff]
      intro e he
      obtain ⟨u, hu, rfl⟩ := List.mem_map.mp he
      rfl
    rw [hx]
    simp [createdHandles]
  refine ⟨List.nodup_nil, ?_, ?_, ?_, ?_, ?_⟩
  · intro fi hfi
    exact absurd hfi (List.not_mem_nil fi)
  · intro u hu
    exact absurd hu (List.not_mem_nil u)
  · rw [createdHandles_append, hcrt, List.append_nil]
    exact h4
  · intro k hk
    rw [revokedHandles_append, hrev, List.count_append]
    have hb := h5 k hk
    have hz : (currentPreviews (clearAllFiles s).1).count (env.urlAt k) = 0 :=
      rfl
    rw [hz]
    omega
  · intro u hu
    rw [revokedHandles_append, hrev, List.mem_append] at hu
    rcases hu with hu | hu
    · exact h6 u hu
    · exact h3 u hu

theorem resInv_remove (env : Env) (s : MState) (tr : List Event)
    (id : String) (h : ResInv env s tr) :
    ResInv env (removeFile id s).1 (tr ++ (removeFile id s).2) := by
  obtain ⟨h1, h2, h3, h4, h5, h6⟩ := h
  have hctr1 : (removeFile id s).1.idCtr = s.idCtr := rfl
  have hctr2 : (removeFile id s).1.urlCtr = s.urlCtr := rfl
  by_cases hmem : id ∈ s.files.map (fun fi => fi.id)
  · obtain ⟨hlen, fi, l1, l2, hidfi, hsplit, hfiles, hev⟩ :=
      (removeFile_spec id s h1).1 hmem
    have hcurS : currentPreviews s =
        l1.filterMap (fun g => g.preview) ++
          (fi.preview.toList ++ l2.filterMap (fun g => g.preview)) := by
      rw [currentPreviews, hsplit, List.filterMap_append,
        filterMap_preview_cons]
    have hcurS2 : currentPreviews (removeFile id s).1 =
        l1.filterMap (fun g => g.preview) ++
          l2.filterMap (fun g => g.preview) := by
      rw [currentPreviews, hfiles, List.filterMap_append]
    have hrev : revokedHandles (removeFile id s).2 = fi.preview.toList := by
      rw [hev, revokedHandles_preview_toList]
    have hcrt : createdHandles (removeFile id s).2 = [] := by
      rw [hev, createdHandles_preview_toList]
    have hsub : (removeFile id s).1.files.Sublist s.files := by
      rw [hfiles, hsplit]
      exact List.Sublist.append_left
        (List.Sublist.cons fi (List.Sublist.refl l2)) l1
    refine ⟨?_, ?_, ?_, ?_, ?_, ?_⟩
    · exact List.Nodup.sublist (List.Sublist.map _ hsub) h1
    · intro g hg
      rw [hctr1]
      exact h2 g (hsub.subset hg)
    · intro u hu
      rw [hctr2]
      refine h3 u ?_
      rw [hcurS]
      rw [hcurS2, List.mem_append] at hu
      rcases hu with hu | hu
      · exact List.mem_append_left _ hu
      · exact List.mem_append_right _ (List.mem_append_right _ hu)
    · rw [createdHandles_append, hcrt, List.append_nil, hctr2]
      exact h4
    · intro k hk
      rw [hctr2] at hk
      have hb := h5 k hk
      rw [hcurS, List.count_append, List.count_append] at hb
      rw [revokedHandles_append, hrev, List.count_append, hcurS2,
        List.count_append]
      omega
    · intro u hu
      rw [hctr2]
      rw [revokedHandles_append, List.mem_append, hrev] at hu
      rcases hu with hu | hu
      · exact h6 u hu
      · refine h3 u ?_
        rw [hcurS]
        exact List.mem_append_right _ (List.mem_append_left _ hu)
  · obtain ⟨hfiles, hev⟩ := (removeFile_spec id s h1).2 hmem
    have hcur : currentPreviews (removeFile id s).1 = currentPreviews s := by
      rw [currentPreviews, hfiles, currentPreviews]
    refine ⟨?_, ?_, ?_, ?_, ?_, ?_⟩
    · rw [hfiles]; exact h1
    · intro g hg
      rw [hctr1]
      exact h2 g (hfiles ▸ hg)
    · intro u hu
      rw [hctr2]
      exact h3 u (hcur ▸ hu)
    · rw [hev, List.append_nil, hctr2]
      exact h4
    · intro k hk
      rw [hctr2] at hk
      rw [hev, List.append_nil, hcur]
      exact h5 k hk
    · intro u hu
      rw [hev, List.append_nil] at hu
      rw [hctr2]
      exact h6 u hu

theorem resInv_add (env : Env) (hid : Function.Injective env.idAt)
    (hurl : Function.Injective env.urlAt) (s : MState) (tr : List Event)
    (raws : List RawFile) (h : ResInv env s tr) :
    ResInv env (addFiles env raws s).1 (tr ++ (addFiles env raws s).2) := by
  obtain ⟨h1, h2, h3, h4, h5, h6⟩ := h
  obtain ⟨hp, he, hu, hi, hids⟩ := stageList_shape env raws s.idCtr s.urlCtr
  have hfiles : (addFiles env raws s).1.files =
      s.files ++ (stageList env s.idCtr s.urlCtr raws).items := rfl
  have hidctr : (addFiles env raws s).1.idCtr = s.idCtr + raws.length := hi
  have hurlctr : (addFiles env raws s).1.urlCtr =
      s.urlCtr + (raws.filter isImage).length := hu
  have hev2 : (addFiles env raws s).2 =
      (stageList env s.idCtr s.urlCtr raws).events ++
        [Event.toastSuccess
          ("Added " ++ toString raws.length ++ " file(s)")] := rfl
  have hcrt : createdHandles (addFiles env raws s).2 =
      (List.range' s.urlCtr ((raws.filter isImage).length)).map env.urlAt := by
    rw [hev2, createdHandles_append, he, createdHandles_map_createURL]
    simp [createdHandles]
  have hrev2 : revokedHandles (addFiles env raws s).2 = [] := by
    rw [hev2, revokedHandles_append, he]
    have hx : revokedHandles
        (((List.range' s.urlCtr ((raws.filter isImage).length)).map
          env.urlAt).map Event.createURL) = [] := by
      rw [revokedHandles, List.filterMap_eq_nil_iff]
      intro e hmem
      obtain ⟨u2, hu2, rfl⟩ := List.mem_map.mp hmem
      rfl
    rw [hx]
    simp [revokedHandles]
  have hcur : currentPreviews (addFiles env raws s).1 =
      currentPreviews s ++
        (List.range' s.urlCtr ((raws.filter isImage).length)).map env.urlAt := by
    rw [currentPreviews, hfiles, List.filterMap_append, currentPreviews, hp]
  refine ⟨?_, ?_, ?_, ?_, ?_, ?_⟩
  · rw [hfiles, List.map_append, List.nodup_append]
    refine ⟨h1, ?_, ?_⟩
    · rw [hids]
      exact (List.nodup_range' _ _).map hid
    · intro a ha hb
      rw [hids] at hb
      obtain ⟨k2, hk2, hk2eq⟩ := List.mem_map.mp hb
      obtain ⟨fi0, hfi0, hfeq⟩ := List.mem_map.mp ha
      obtain ⟨k1, hk1, hkeq⟩ := h2 fi0 hfi0
      rw [List.mem_range'] at hk2
      obtain ⟨j, hj, rfl⟩ := hk2
      have hk12 : k1 = s.idCtr + 1 * j := hid (by rw [← hkeq, hfeq, ← hk2eq])
      omega
  · intro g hg
    rw [hidctr]
    rw [hfiles, List.mem_append] at hg
    rcases hg with hg | hg
    · obtain ⟨k, hk, hkeq⟩ := h2 g hg
      exact ⟨k, by omega, hkeq⟩
    · have hmm : g.id ∈ (stageList env s.idCtr s.urlCtr raws).items.map
          (fun fi => fi.id) := List.mem_map_of_mem _ hg
      rw [hids] at hmm
      obtain ⟨k2, hk2, hk2eq⟩ := List.mem_map.mp hmm
      rw [List.mem_range'] at hk2
      obtain ⟨j, hj, rfl⟩ := hk2
      exact ⟨s.idCtr + 1 * j, by omega, hk2eq.symm⟩
  · intro u2 hu2
    rw [hurlctr]
    rw [hcur, List.mem_append] at hu2
    rcases hu2 with hu2 | hu2
    · obtain ⟨k, hk, hkeq⟩ := h3 u2 hu2
      exact ⟨k, by omega, hkeq⟩
    · obtain ⟨k2, hk2, hk2eq⟩ := List.mem_map.mp hu2
      rw [List.mem_range'] at hk2
      obtain ⟨j, hj, rfl⟩ := hk2
      exact ⟨s.urlCtr + 1 * j, by omega, hk2eq.symm⟩
  · rw [createdHandles_append, h4, hcrt, hurlctr, range_map_append]
  · intro k hk
    rw [hurlctr] at hk
    rw [revokedHandles_append, hrev2, List.append_nil, hcur,
      List.count_append]
    by_cases hlt : k < s.urlCtr
    · have hz : ((List.range' s.urlCtr
          ((raws.filter isImage).length)).map env.urlAt).count
          (env.urlAt k) = 0 := by
        apply List.count_eq_zero_of_not_mem
        intro hmm
        obtain ⟨k2, hk2, hk2eq⟩ := List.mem_map.mp hmm
        rw [List.mem_range'] at hk2
        obtain ⟨j, hj, rfl⟩ := hk2
        have := hurl hk2eq
        omega
      rw [hz]
      have := h5 k hlt
      omega
    · have hz1 : (revokedHandles tr).count (env.urlAt k) = 0 := by
        apply List.count_eq_zero_of_not_mem
        intro hmm
        obtain ⟨k1, hk1, hkeq⟩ := h6 _ hmm
        have := hurl hkeq.symm
        omega
      have hz2 : (currentPreviews s).count (env.urlAt k) = 0 := by
        apply List.count_eq_zero_of_not_mem
        intro hmm
        obtain ⟨k1, hk1, hkeq⟩ := h3 _ hmm
        have := hurl hkeq.symm
        omega
      have hone : ((List.range' s.urlCtr
          ((raws.filter isImage).length)).map env.urlAt).count
          (env.urlAt k) = 1 := by
        rw [List.count_map_of_injective _ env.urlAt hurl]
        apply List.count_eq_one_of_mem (List.nodup_range' _ _)
        rw [List.mem_range']
        exact ⟨k - s.urlCtr, by omega, by omega⟩
      rw [hz1, hz2, hone]
  · intro u2 hu2
    rw [hurlctr]
    rw [revokedHandles_append, hrev2, List.append_nil] at hu2
    obtain ⟨k, hk, hkeq⟩ := h6 u2 hu2
    exact ⟨k, by omega, hkeq⟩

theorem resInv_step (env : Env) (hid : Function.Injective env.idAt)
    (hurl : Function.Injective env.urlAt) (s : MState) (tr : List Event)
    (a : UIAction) (h : ResInv env s tr) :
    ResInv env (step env s a).1 (tr ++ (step env s a).2) := by
  cases a with
  | addA raws => exact resInv_add env hid hurl s tr raws h
  | removeA id => exact resInv_remove env s tr id h
  | clearA => exact resInv_clear env s tr h
  | buildA now out => exact resInv_build env s tr now out h

theorem resInv_run (env : Env) (hid : Function.Injective env.idAt)
    (hurl : Function.Injective env.urlAt) :
    ∀ (acts : List UIAction) (s : MState) (tr : List Event),
      ResInv env s tr →
      ResInv env (run env s acts).1 (tr ++ (run env s acts).2) := by
  intro acts
  induction acts with
  | nil => intro s tr h; simpa [run] using h
  | cons a rest ih =>
    intro s tr h
    have h1 := resInv_step env hid hurl s tr a h
    have h2 := ih (step env s a).1 (tr ++ (step env s a).2) h1
    simpa [run, List.append_assoc] using h2

theorem resInv_init (env : Env) : ResInv env initState [] := by
  refine ⟨List.nodup_nil, ?_, ?_, rfl, ?_, ?_⟩
  · intro fi hfi; exact absurd hfi (List.not_mem_nil fi)
  · intro u hu; exact absurd hu (List.not_mem_nil u)
  · intro k hk; exact absurd hk (Nat.not_lt_zero k)
  · intro u hu; exact absurd hu (List.not_mem_nil u)

/-- Claim C7 (amended): provided the random ids and the object URLs the
browser supplies are pairwise distinct — the uniqueness the source relies
on — every preview handle allocated for a staged image file during a
session is released exactly once: no handle is ever revoked twice, an
allocated handle that is no longer staged has been revoked exactly once (at
the individual removal or bulk clear that dropped it), and clearing empties
the collection and revokes each still-staged preview handle exactly once.
(As stated — over arbitrary random-id behaviour — the claim fails when two
entries receive the same id: see the counterexample.) -/
theorem preview_release_exactly_once (env : Env)
    (hid : Function.Injective env.idAt)
    (hurl : Function.Injective env.urlAt) (acts : List UIAction) :
    (∀ u, (revokedHandles (runFromInit env acts).2).count u ≤ 1)
    ∧ (∀ u, u ∈ createdHandles (runFromInit env acts).2 →
        u ∉ currentPreviews (runFromInit env acts).1 →
        (revokedHandles (runFromInit env acts).2).count u = 1)
    ∧ (clearAllFiles (runFromInit env acts).1).1.files = []
    ∧ (∀ u ∈ currentPreviews (runFromInit env acts).1,
        (revokedHandles ((runFromInit env acts).2 ++
          (clearAllFiles (runFromInit env acts).1).2)).count u = 1) := by
  have hinv : ResInv env (runFromInit env acts).1 (runFromInit env acts).2 := by
    have hr := resInv_run env hid hurl acts initState [] (resInv_init env)
    simpa [runFromInit] using hr
  obtain ⟨h1, h2, h3, h4, h5, h6⟩ := hinv
  refine ⟨?_, ?_, rfl, ?_⟩
  · intro u
    by_cases hmm : u ∈ revokedHandles (runFromInit env acts).2
    · obtain ⟨k, hk, rfl⟩ := h6 u hmm
      have := h5 k hk
      omega
    · rw [List.count_eq_zero_of_not_mem hmm]
      omega
  · intro u hcr hnc
    rw [h4] at hcr
    obtain ⟨k, hk, hkeq⟩ := List.mem_map.mp hcr
    rw [List.mem_range] at hk
    subst hkeq
    have hb := h5 k hk
    have hz : (currentPreviews (runFromInit env acts).1).count
        (env.urlAt k) = 0 := List.count_eq_zero_of_not_mem hnc
    omega
  · intro u hu
    obtain ⟨k, hk, rfl⟩ := h3 u hu
    have hb := h5 k hk
    have hpos : 0 < (currentPreviews (runFromInit env acts).1).count
        (env.urlAt k) := List.count_pos_iff.mpr hu
    have hev : (clearAllFiles (runFromInit env acts).1).2 =
        (currentPreviews (runFromInit env acts).1).map Event.revokeURL ++
          [Event.toastSuccess "All files cleared"] := rfl
    rw [revokedHandles_append, hev, revokedHandles_append,
      revokedHandles_map_revokeURL, List.count_append, List.count_append]
    have hz : (revokedHandles [Event.toastSuccess "All files cleared"]).count
        (env.urlAt k) = 0 := rfl
    rw [hz]
    omega

theorem replicate_mk_injective (c : Char) :
    Function.Injective (fun k => String.mk (List.replicate (k + 1) c)) := by
  intro a b hab
  have hlen := congrArg (fun s => s.data.length) hab
  simpa using hlen

/-- Witness for C7 (amended): with an injective id/URL supply, in the
session that stages one image and clears, no handle is revoked more than
once. -/
theorem preview_release_exactly_once_witness :
    (revokedHandles
        (runFromInit envW [UIAction.addA [imgA], UIAction.clearA]).2).count
      "u" ≤ 1 :=
  (preview_release_exactly_once envW (replicate_mk_injective 'i')
    (replicate_mk_injective 'u') [UIAction.addA [imgA], UIAction.clearA]).1 "u"

/-- Claim C7 counterexample: when the random id generator collides (both
staged images get id `dup`), removing that id drops both entries but revokes
only the first preview: handle `uu` is allocated, its entry is removed, and
it is never released during the completed session. -/
theorem preview_leak_counterexample :
    createdHandles (runFromInit envC actsC).2 = ["u", "uu"]
    ∧ (runFromInit envC actsC).1.files = []
    ∧ (revokedHandles (runFromInit envC actsC).2).count "uu" = 0 := by
  refine ⟨?_, ?_, ?_⟩ <;> decide
